import Mathlib

/-!
# Verification of `ForgedOperator` (entanglement forging prototype)

Shallow embedding of `src/entanglement_forging/core/forged_operator.py`.
Pauli weights are complex numbers; only rational real/imaginary parts occur
in the properties under study, so complex weights are embedded as pairs of
rationals.  Python dictionaries (`{label: weight for ... if ...}`) are
embedded as association lists with Python's insertion-order semantics,
`sorted` as insertion sort (observably equal on duplicate-free inputs), and
`numpy` matrices as total functions `Nat → Nat → ℚ` that are zero outside
the touched index range.
-/

/-- A complex weight, embedded with rational real and imaginary parts
(`numpy` complex scalars in the source). -/
structure CC where
  re : ℚ
  im : ℚ
  deriving DecidableEq, Repr

/-- Complex multiplication `w_1 * w_2` (used in the two-body double loop). -/
def CC.mul (a b : CC) : CC :=
  ⟨a.re * b.re - a.im * b.im, a.re * b.im + a.im * b.re⟩

/-- Squared magnitude; `np.abs(weight) > 0` in the source is equivalent to
`0 < absSq weight`. -/
def CC.absSq (a : CC) : ℚ := a.re * a.re + a.im * a.im

/-- The term list of a weighted Pauli operator, as returned by
`op.primitive.to_list()`: pairs of a Pauli label and a complex weight. -/
abbrev Terms := List (String × CC)

/-- Python dict insertion: overwrite the value at an existing key in place,
otherwise append the binding at the end (insertion-order semantics). -/
def dinsert (d : Terms) (k : String) (v : CC) : Terms :=
  if d.any (fun p => p.1 = k) then
    d.map (fun p => if p.1 = k then (k, v) else p)
  else d ++ [(k, v)]

/-- `{label: weight for label, weight in op.primitive.to_list() if np.abs(weight) > 0}` -/
def toDict (l : Terms) : Terms :=
  l.foldl (fun d p => if 0 < p.2.absSq then dinsert d p.1 p.2 else d) []

/-- The keys of a dict, in insertion order (`paulis_this_op.keys()`). -/
def dkeys (d : Terms) : List String := d.map Prod.fst

/-- `set.add` (Python): add an element unless already present.  A Python
set is unordered; it is only ever consumed through `sorted`, so a
duplicate-free list is an observably equivalent model. -/
def setAdd (s : List String) (x : String) : List String :=
  if x ∈ s then s else s ++ [x]

/-- `set.update(pnames)`: add every element of the list. -/
def setUnion (s : List String) (xs : List String) : List String :=
  xs.foldl setAdd s

/-- Lexicographic comparison of character lists by Unicode code point,
which is exactly Python's string comparison. -/
def lexLeB : List Char → List Char → Bool
  | [], _ => true
  | _ :: _, [] => false
  | x :: xs, y :: ys => if x = y then lexLeB xs ys else Nat.blt x.toNat y.toNat

/-- Lexicographic order on strings (the comparison used by Python
`sorted` on Pauli labels). -/
def strLe (a b : String) : Prop := lexLeB a.data b.data = true

instance : DecidableRel strLe := fun a b => decEq (lexLeB a.data b.data) true

/-- `sorted(...)`: the sorted permutation of a label set.  On the
duplicate-free lists produced here this is the unique sorted permutation,
so insertion sort is an exact model of Python `sorted`. -/
def ssort (l : List String) : List String :=
  l.insertionSort strLe

/-- A real matrix (`np.zeros((n, n))` plus scattered updates), embedded as
a total function that is zero outside the populated square. -/
abbrev Mat := Nat → Nat → ℚ

/-- The zero matrix `np.zeros((n, n))`. -/
def zeroMat : Mat := fun _ _ => 0

/-- `m[i, j] += v` (all other entries unchanged). -/
def mupd (m : Mat) (i j : Nat) (v : ℚ) : Mat :=
  fun a b => if a = i ∧ b = j then m i j + v else m a b

/-- State of a `ForgedOperator` instance as consumed by `construct`:
the one-body operator `h_1_op` and the optional list of Cholesky factor
operators `h_chol_ops` (each given by its `primitive.to_list()`). -/
structure ForgedOp where
  h_1_op : Terms
  h_chol_ops : Option (List Terms)
  deriving DecidableEq, Repr

/-- `hamiltonian_ops = [self.h_1_op]` extended by the factors when
`h_chol_ops is not None`; `op1` is its head, `cholesky_ops` the tail. -/
def hamiltonian_ops (f : ForgedOp) : List Terms :=
  f.h_1_op :: f.h_chol_ops.getD []

/-- `paulis_each_op`: the nonzero-filtered dict of every operator, keeping
the one-body dict unconditionally and dropping empty factor dicts
(`[paulis_each_op[0]] + [p for p in paulis_each_op[1:] if p]`). -/
def paulis_each_op (f : ForgedOp) : List Terms :=
  toDict f.h_1_op ::
    (((f.h_chol_ops.getD []).map toDict).filter (fun p => !p.isEmpty))

/-- The label union over all processed operators (`tensor_paulis` as a set,
before the identity label is forced in). -/
def tensorSet (f : ForgedOp) : List String :=
  (paulis_each_op f).foldl (fun s d => setUnion s (dkeys d)) []

/-- The label union over the factor operators only (`op_idx > 0`). -/
def superposSet (f : ForgedOp) : List String :=
  (paulis_each_op f).tail.foldl (fun s d => setUnion s (dkeys d)) []

/-- `pnames` as left over by the collection loop: the key list of the last
processed dict (the loop always runs since `paulis_each_op` is nonempty). -/
def last_pnames (f : ForgedOp) : List String :=
  dkeys (((paulis_each_op f).getLast?).getD [])

/-- `identity_string = 'I' * len(pnames[0])`; `none` models the
`IndexError` Python raises when `pnames` is empty. -/
def identity_string (f : ForgedOp) : Option String :=
  match last_pnames f with
  | [] => none
  | p :: _ => some ⟨List.replicate p.length 'I'⟩

/-- `pauli_ordering_for_*_states[pname]`: index of a label in the sorted
label list (the enumerate-dict of a duplicate-free list is exactly
first-index lookup). -/
def ordIdx (l : List String) (s : String) : Nat := l.indexOf s

/-- The one-body accumulation loop:
`w_ij[i, identity_idx] += Re w_i; w_ij[identity_idx, i] += Re w_i`
for every `(pname_i, w_i)` in `paulis_each_op[0]`. -/
def oneBodyFold (ordT : String → Nat) (idIdx : Nat) (d : Terms) (m : Mat) : Mat :=
  d.foldl (fun m p => mupd (mupd m (ordT p.1) idIdx p.2.re) idIdx (ordT p.1) p.2.re) m

/-- Inner loop of the two-body accumulation (over `pname_2, w_2`):
updates `w_ij` at tensor indices and `w_ab` at superpos indices. -/
def twoBodyInner (ordT ordS : String → Nat) (d : Terms) (p1 : String × CC)
    (acc : Mat × Mat) : Mat × Mat :=
  d.foldl (fun acc p2 =>
    (mupd acc.1 (ordT p1.1) (ordT p2.1) (CC.mul p1.2 p2.2).re,
     mupd acc.2 (ordS p1.1) (ordS p2.1) (CC.mul p1.2 p2.2).re)) acc

/-- Outer loop of the two-body accumulation (over `pname_1, w_1`). -/
def twoBodyGamma (ordT ordS : String → Nat) (d : Terms) (acc : Mat × Mat) :
    Mat × Mat :=
  d.foldl (fun acc p1 => twoBodyInner ordT ordS d p1 acc) acc

/-- Loop over all Cholesky factor dicts (`paulis_each_op[1:]`). -/
def twoBodyAll (ordT ordS : String → Nat) (ds : List Terms) (acc : Mat × Mat) :
    Mat × Mat :=
  ds.foldl (fun acc d => twoBodyGamma ordT ordS d acc) acc

/-- Errors `construct` can surface.  `indexError` models Python's
`IndexError` from `pnames[0]` on an empty key list.  `emptyOperatorError`
is the dedicated error the spec recommends; it does not occur anywhere in
the source and is present only so that statements about it can be made. -/
inductive ForgeError where
  | indexError
  | emptyOperatorError
  deriving DecidableEq, Repr

/-- The 4-tuple returned by `construct`. -/
structure ConstructResult where
  tensor_paulis : List String
  superpos_paulis : List String
  w_ij : Mat
  w_ab : Mat

/-- The matrix after the one-body accumulation, starting from
`np.zeros`. -/
def oneBodyMat (f : ForgedOp) (tensor : List String) (idStr : String) : Mat :=
  oneBodyFold (ordIdx tensor) (ordIdx tensor idStr) (toDict f.h_1_op) zeroMat

/-- `ForgedOperator.construct`, faithfully sequencing the source:
build the per-operator dicts, the two label sets, the forced identity
label, the sorted label lists with their index lookups, then run the
one-body and two-body accumulation loops over zero matrices. -/
def construct (f : ForgedOp) : Except ForgeError ConstructResult :=
  match identity_string f with
  | none => .error .indexError
  | some idStr =>
    let tensor_paulis := ssort (setAdd (tensorSet f) idStr)
    let superpos_paulis := ssort (superposSet f)
    let ordT := ordIdx tensor_paulis
    let ordS := ordIdx superpos_paulis
    let w1 := oneBodyMat f tensor_paulis idStr
    let wpair := twoBodyAll ordT ordS (paulis_each_op f).tail (w1, zeroMat)
    .ok ⟨tensor_paulis, superpos_paulis, wpair.1, wpair.2⟩

/-- The informational log records `construct` emits (`Log.log` calls),
as (message, count) pairs.  They are emitted after the identity label is
derived, so the `IndexError` path emits nothing. -/
def constructLogs (f : ForgedOp) : List (String × Nat) :=
  match identity_string f with
  | none => []
  | some idStr =>
    [("num paulis for tensor states:", (setAdd (tensorSet f) idStr).length),
     ("num paulis for superpos states:", (superposSet f).length)]

/-- `construct` as a state transformer on the instance.  The method body
contains no assignment to any `self` field, so the post-state is the
pre-state. -/
def constructSt (f : ForgedOp) : ForgedOp × Except ForgeError ConstructResult :=
  (f, construct f)

/-- Molecule data as consumed by `ForgedOperator.__init__`: the integral
payload (`mo_coeff`, `hcore`, `eri`, ...) is only ever passed through to
the decomposer, so it is kept abstract as a type parameter. -/
structure QMoleculeData (I : Type) where
  integrals : I
  num_alpha : Nat
  num_beta : Nat

/-- Error surfaced by `ForgedOperator.__init__`: the failed `assert`
on the electron counts (the spec's `PreconditionError`). -/
inductive InitError where
  | preconditionError
  deriving DecidableEq, Repr

/-- Modelled from the spec: `__init__` of `ForgedOperator`.  The modules
`cholesky_hamiltonian` (`get_fermionic_ops_with_cholesky`) and
`orbitals_to_reduce` (`OrbitalsToReduce`) are repository code not present
under `src/`; per spec §4.1 the decomposer is a function of the molecule
data and the reduction list producing the one-body operator and the factor
list, abstracted here as the parameter `decomp`.  The source computes the
fermionic results first and only then asserts `num_alpha == num_beta`
(raising `AssertionError`, the realization of the spec's
`PreconditionError`). -/
def forgedOperatorInit {I : Type}
    (decomp : QMoleculeData I → List Nat → Terms × Option (List Terms))
    (qmolecule : QMoleculeData I) (all_orbitals_to_reduce : List Nat) :
    Except InitError ForgedOp :=
  let res := decomp qmolecule all_orbitals_to_reduce
  if qmolecule.num_alpha = qmolecule.num_beta then
    .ok ⟨res.1, res.2⟩
  else
    .error .preconditionError

/-- The toy one-body operator of the end-to-end scenario: nonzero term
`IIZI` with weight `0.3` and the identity `IIII` with weight `0`. -/
def toyOneBody : Terms := [("IIZI", ⟨3/10, 0⟩), ("IIII", ⟨0, 0⟩)]

/-- The toy two-body factor: `{IIZI: 0.5, IXXI: 0.2}`. -/
def toyFactor : Terms := [("IIZI", ⟨1/2, 0⟩), ("IXXI", ⟨1/5, 0⟩)]

/-- The toy `ForgedOperator` state of the end-to-end scenario. -/
def toyF : ForgedOp := ⟨toyOneBody, some [toyFactor]⟩


/-! ## Order facts for the lexicographic label order -/

theorem char_toNat_inj {x y : Char} (h : x.toNat = y.toNat) : x = y := by
  rw [← Char.ofNat_toNat x, ← Char.ofNat_toNat y, h]

theorem lexLeB_total : ∀ l1 l2 : List Char, lexLeB l1 l2 = true ∨ lexLeB l2 l1 = true
  | [], _ => Or.inl rfl
  | _ :: _, [] => Or.inr rfl
  | x :: xs, y :: ys => by
    by_cases h : x = y
    · subst h
      simp only [lexLeB, if_pos rfl]
      exact lexLeB_total xs ys
    · rcases Nat.lt_trichotomy x.toNat y.toNat with hlt | heq | hgt
      · left
        simp only [lexLeB, if_neg h]
        simpa using hlt
      · exact absurd (char_toNat_inj heq) h
      · right
        simp only [lexLeB, if_neg (Ne.symm h)]
        simpa using hgt

theorem lexLeB_trans : ∀ l1 l2 l3 : List Char,
    lexLeB l1 l2 = true → lexLeB l2 l3 = true → lexLeB l1 l3 = true
  | [], _, _, _, _ => rfl
  | _ :: _, [], _, h1, _ => by simp [lexLeB] at h1
  | _ :: _, _ :: _, [], _, h2 => by simp [lexLeB] at h2
  | x :: xs, y :: ys, z :: zs, h1, h2 => by
    by_cases hxy : x = y <;> by_cases hyz : y = z
    · subst hxy; subst hyz
      simp only [lexLeB, if_pos rfl] at h1 h2 ⊢
      exact lexLeB_trans xs ys zs h1 h2
    · subst hxy
      simp only [lexLeB, if_pos rfl, if_neg hyz] at h1 h2 ⊢
      exact h2
    · subst hyz
      simp only [lexLeB, if_pos rfl, if_neg hxy] at h1 h2 ⊢
      exact h1
    · simp only [lexLeB, if_neg hxy, if_neg hyz, Nat.blt_eq] at h1 h2
      have hxz : x ≠ z := by
        intro h
        subst h
        exact absurd (Nat.lt_trans h1 h2) (Nat.lt_irrefl _)
      simp only [lexLeB, if_neg hxz, Nat.blt_eq]
      exact Nat.lt_trans h1 h2

theorem lexLeB_antisymm : ∀ l1 l2 : List Char,
    lexLeB l1 l2 = true → lexLeB l2 l1 = true → l1 = l2
  | [], [], _, _ => rfl
  | [], _ :: _, _, h2 => by simp [lexLeB] at h2
  | _ :: _, [], h1, _ => by simp [lexLeB] at h1
  | x :: xs, y :: ys, h1, h2 => by
    by_cases h : x = y
    · subst h
      simp only [lexLeB, if_pos rfl] at h1 h2
      rw [lexLeB_antisymm xs ys h1 h2]
    · simp only [lexLeB, if_neg h, if_neg (Ne.symm h), Nat.blt_eq] at h1 h2
      exact absurd (Nat.lt_trans h1 h2) (Nat.lt_irrefl _)

instance : IsTotal String strLe := ⟨fun a b => lexLeB_total a.data b.data⟩

instance : IsTrans String strLe := ⟨fun a b c => lexLeB_trans a.data b.data c.data⟩

instance : IsAntisymm String strLe := by
  refine ⟨fun a b h1 h2 => ?_⟩
  cases a with
  | mk da =>
    cases b with
    | mk db => exact congrArg String.mk (lexLeB_antisymm da db h1 h2)

theorem sorted_ssort (l : List String) : List.Sorted strLe (ssort l) :=
  List.sorted_insertionSort strLe l

theorem ssort_perm (l : List String) : (ssort l).Perm l :=
  List.perm_insertionSort strLe l

theorem mem_ssort {x : String} {l : List String} : x ∈ ssort l ↔ x ∈ l :=
  (ssort_perm l).mem_iff

theorem nodup_ssort {l : List String} (h : l.Nodup) : (ssort l).Nodup :=
  ((ssort_perm l).nodup_iff).mpr h

theorem length_ssort (l : List String) : (ssort l).length = l.length :=
  (ssort_perm l).length_eq

/-! ## Update-list semantics for the accumulation loops -/

/-- Run a list of `m[i, j] += v` updates. -/
def applyUpds (m : Mat) (L : List (Nat × Nat × ℚ)) : Mat :=
  L.foldl (fun m u => mupd m u.1 u.2.1 u.2.2) m

/-- Contribution of one update to the entry at `(a, b)`. -/
def contrib (a b : Nat) (u : Nat × Nat × ℚ) : ℚ :=
  if u.1 = a ∧ u.2.1 = b then u.2.2 else 0

theorem applyUpds_append (m : Mat) (L1 L2 : List (Nat × Nat × ℚ)) :
    applyUpds m (L1 ++ L2) = applyUpds (applyUpds m L1) L2 :=
  List.foldl_append _ _ _ _

theorem applyUpds_apply (L : List (Nat × Nat × ℚ)) (m : Mat) (a b : Nat) :
    applyUpds m L a b = m a b + (L.map (contrib a b)).sum := by
  induction L generalizing m with
  | nil => simp [applyUpds]
  | cons u L ih =>
    show applyUpds (mupd m u.1 u.2.1 u.2.2) L a b = _
    rw [ih]
    simp only [List.map_cons, List.sum_cons, mupd, contrib]
    by_cases h : a = u.1 ∧ b = u.2.1
    · obtain ⟨h1, h2⟩ := h
      rw [if_pos ⟨h1, h2⟩, if_pos ⟨h1.symm, h2.symm⟩]
      subst h1; subst h2
      ring
    · have h' : ¬ (u.1 = a ∧ u.2.1 = b) := fun hc => h ⟨hc.1.symm, hc.2.symm⟩
      rw [if_neg h, if_neg h']
      ring

/-- The update list of the one-body loop. -/
def oneBodyUpds (ordT : String → Nat) (idIdx : Nat) (d : Terms) :
    List (Nat × Nat × ℚ) :=
  d.flatMap (fun p => [(ordT p.1, idIdx, p.2.re), (idIdx, ordT p.1, p.2.re)])

theorem oneBodyFold_eq (ordT : String → Nat) (idIdx : Nat) (d : Terms) (m : Mat) :
    oneBodyFold ordT idIdx d m = applyUpds m (oneBodyUpds ordT idIdx d) := by
  induction d generalizing m with
  | nil => rfl
  | cons p d ih =>
    show oneBodyFold ordT idIdx d (mupd (mupd m _ _ _) _ _ _) = _
    rw [ih]
    rfl

/-- The update list one factor contributes to a matrix with index lookup
`ord` (to `w_ij` via tensor indices, to `w_ab` via superpos indices). -/
def gammaUpds (ord : String → Nat) (d : Terms) : List (Nat × Nat × ℚ) :=
  d.flatMap (fun p1 => d.map (fun p2 =>
    (ord p1.1, ord p2.1, (CC.mul p1.2 p2.2).re)))

theorem twoBodyInner_eq (ordT ordS : String → Nat) (d : Terms) (p1 : String × CC)
    (mij mab : Mat) :
    twoBodyInner ordT ordS d p1 (mij, mab) =
      (applyUpds mij (d.map (fun p2 => (ordT p1.1, ordT p2.1, (CC.mul p1.2 p2.2).re))),
       applyUpds mab (d.map (fun p2 => (ordS p1.1, ordS p2.1, (CC.mul p1.2 p2.2).re)))) := by
  induction d generalizing mij mab with
  | nil => rfl
  | cons p2 d ih =>
    show twoBodyInner ordT ordS d p1 (mupd mij _ _ _, mupd mab _ _ _) = _
    rw [ih]
    rfl

theorem twoBody_outer (ordT ordS : String → Nat) (l d : Terms) (mij mab : Mat) :
    l.foldl (fun acc p1 => twoBodyInner ordT ordS d p1 acc) (mij, mab) =
      (applyUpds mij (l.flatMap (fun p1 => d.map (fun p2 =>
          (ordT p1.1, ordT p2.1, (CC.mul p1.2 p2.2).re)))),
       applyUpds mab (l.flatMap (fun p1 => d.map (fun p2 =>
          (ordS p1.1, ordS p2.1, (CC.mul p1.2 p2.2).re))))) := by
  induction l generalizing mij mab with
  | nil => rfl
  | cons p1 l ih =>
    show l.foldl _ (twoBodyInner ordT ordS d p1 (mij, mab)) = _
    rw [twoBodyInner_eq, ih]
    simp only [List.flatMap_cons, applyUpds_append]

theorem twoBodyGamma_eq (ordT ordS : String → Nat) (d : Terms) (mij mab : Mat) :
    twoBodyGamma ordT ordS d (mij, mab) =
      (applyUpds mij (gammaUpds ordT d), applyUpds mab (gammaUpds ordS d)) :=
  twoBody_outer ordT ordS d d mij mab

theorem twoBodyAll_eq (ordT ordS : String → Nat) (ds : List Terms) (mij mab : Mat) :
    twoBodyAll ordT ordS ds (mij, mab) =
      (applyUpds mij (ds.flatMap (gammaUpds ordT)),
       applyUpds mab (ds.flatMap (gammaUpds ordS))) := by
  induction ds generalizing mij mab with
  | nil => rfl
  | cons d ds ih =>
    show twoBodyAll ordT ordS ds (twoBodyGamma ordT ordS d (mij, mab)) = _
    rw [twoBodyGamma_eq, ih]
    simp only [List.flatMap_cons, applyUpds_append]

/-! ## Closed forms for the matrix entries -/

theorem sum_map_add {α : Type} (l : List α) (f g : α → ℚ) :
    (l.map (fun x => f x + g x)).sum = (l.map f).sum + (l.map g).sum := by
  induction l with
  | nil => simp
  | cons a l ih =>
    simp only [List.map_cons, List.sum_cons, ih]
    ring

theorem sum_map_flatMap {α β : Type} (l : List α) (f : α → List β) (g : β → ℚ) :
    ((l.flatMap f).map g).sum = (l.map (fun x => ((f x).map g).sum)).sum := by
  induction l with
  | nil => rfl
  | cons a l ih =>
    simp only [List.flatMap_cons, List.map_append, List.sum_append, ih,
      List.map_cons, List.sum_cons]

theorem sum_map_swap {α : Type} (l1 l2 : List α) (g : α → α → ℚ) :
    (l1.map (fun x => (l2.map (fun y => g x y)).sum)).sum =
      (l2.map (fun y => (l1.map (fun x => g x y)).sum)).sum := by
  induction l1 with
  | nil => simp
  | cons a l1 ih =>
    simp only [List.map_cons, List.sum_cons, ih, ← sum_map_add]

/-- Total contribution of the one-body loop to entry `(a, b)` (step 7 of
the spec's algorithm): each term adds `Re w` at `(index p, identity)` and
at `(identity, index p)`. -/
def oneBodySum (ordT : String → Nat) (idIdx : Nat) (d : Terms) (a b : Nat) : ℚ :=
  (d.map (fun p =>
    (if ordT p.1 = a ∧ idIdx = b then p.2.re else 0) +
    (if idIdx = a ∧ ordT p.1 = b then p.2.re else 0))).sum

/-- Contribution of a single factor to entry `(a, b)` (step 8 of the
spec's algorithm): `Re (w_1 * w_2)` summed over all ordered pairs of the
factor's nonzero terms whose index pair is `(a, b)`. -/
def pairContrib (ord : String → Nat) (d : Terms) (a b : Nat) : ℚ :=
  (d.map (fun p1 => (d.map (fun p2 =>
    if ord p1.1 = a ∧ ord p2.1 = b then (CC.mul p1.2 p2.2).re else 0)).sum)).sum

/-- Additive accumulation over all factors. -/
def pairSum (ord : String → Nat) (ds : List Terms) (a b : Nat) : ℚ :=
  (ds.map (fun d => pairContrib ord d a b)).sum

theorem oneBodyFold_apply (ordT : String → Nat) (idIdx : Nat) (d : Terms)
    (m : Mat) (a b : Nat) :
    oneBodyFold ordT idIdx d m a b = m a b + oneBodySum ordT idIdx d a b := by
  rw [oneBodyFold_eq, applyUpds_apply, oneBodySum, oneBodyUpds, sum_map_flatMap]
  congr 1
  refine congrArg List.sum (List.map_congr_left fun p _ => ?_)
  simp [contrib]

theorem gammaUpds_sum (ord : String → Nat) (d : Terms) (a b : Nat) :
    ((gammaUpds ord d).map (contrib a b)).sum = pairContrib ord d a b := by
  rw [gammaUpds, sum_map_flatMap, pairContrib]
  refine congrArg List.sum (List.map_congr_left fun p1 _ => ?_)
  rw [List.map_map]
  refine congrArg List.sum (List.map_congr_left fun p2 _ => ?_)
  simp [contrib]

theorem flatMap_gammaUpds_sum (ord : String → Nat) (ds : List Terms) (a b : Nat) :
    ((ds.flatMap (gammaUpds ord)).map (contrib a b)).sum = pairSum ord ds a b := by
  rw [sum_map_flatMap, pairSum]
  exact congrArg List.sum (List.map_congr_left fun d _ => gammaUpds_sum ord d a b)

/-- Inversion of a successful `construct` run into its components. -/
theorem construct_ok {f : ForgedOp} {r : ConstructResult}
    (h : construct f = .ok r) :
    ∃ idStr, identity_string f = some idStr ∧
      r.tensor_paulis = ssort (setAdd (tensorSet f) idStr) ∧
      r.superpos_paulis = ssort (superposSet f) ∧
      (∀ a b, r.w_ij a b =
        oneBodySum (ordIdx r.tensor_paulis) (ordIdx r.tensor_paulis idStr)
          (toDict f.h_1_op) a b +
        pairSum (ordIdx r.tensor_paulis) (paulis_each_op f).tail a b) ∧
      (∀ a b, r.w_ab a b =
        pairSum (ordIdx r.superpos_paulis) (paulis_each_op f).tail a b) := by
  unfold construct at h
  cases hid : identity_string f with
  | none => rw [hid] at h; cases h
  | some idStr =>
    rw [hid] at h
    injection h with h
    subst h
    refine ⟨idStr, rfl, rfl, rfl, ?_, ?_⟩
    · intro a b
      dsimp only
      rw [twoBodyAll_eq]
      dsimp only
      rw [applyUpds_apply, oneBodyMat, oneBodyFold_apply, flatMap_gammaUpds_sum]
      simp only [zeroMat]
      ring
    · intro a b
      dsimp only
      rw [twoBodyAll_eq]
      dsimp only
      rw [applyUpds_apply, flatMap_gammaUpds_sum]
      simp only [zeroMat]
      ring

/-! ## Membership and duplicate-freeness of the label sets -/

theorem mem_setAdd {s : List String} {x y : String} :
    x ∈ setAdd s y ↔ x ∈ s ∨ x = y := by
  unfold setAdd
  split
  · rename_i hy
    constructor
    · exact Or.inl
    · rintro (h | rfl)
      · exact h
      · exact hy
  · simp [List.mem_append]

theorem nodup_setAdd {s : List String} (h : s.Nodup) (y : String) :
    (setAdd s y).Nodup := by
  unfold setAdd
  split
  · exact h
  · rename_i hy
    exact ((List.perm_append_singleton y s).nodup_iff).mpr (h.cons hy)

theorem mem_setUnion {s xs : List String} {x : String} :
    x ∈ setUnion s xs ↔ x ∈ s ∨ x ∈ xs := by
  induction xs generalizing s with
  | nil => simp [setUnion]
  | cons y ys ih =>
    show x ∈ setUnion (setAdd s y) ys ↔ _
    rw [ih, mem_setAdd]
    simp [or_assoc]

theorem nodup_setUnion {s xs : List String} (h : s.Nodup) :
    (setUnion s xs).Nodup := by
  induction xs generalizing s with
  | nil => exact h
  | cons y ys ih => exact ih (nodup_setAdd h y)

theorem mem_foldl_setUnion {ds : List Terms} {s : List String} {x : String} :
    x ∈ ds.foldl (fun s d => setUnion s (dkeys d)) s ↔
      x ∈ s ∨ ∃ d ∈ ds, x ∈ dkeys d := by
  induction ds generalizing s with
  | nil => simp
  | cons d ds ih =>
    show x ∈ List.foldl _ (setUnion s (dkeys d)) ds ↔ _
    rw [ih, mem_setUnion]
    simp [or_assoc]

theorem nodup_foldl_setUnion {ds : List Terms} {s : List String}
    (h : s.Nodup) : (ds.foldl (fun s d => setUnion s (dkeys d)) s).Nodup := by
  induction ds generalizing s with
  | nil => exact h
  | cons d ds ih => exact ih (nodup_setUnion h)

theorem mem_tensorSet {f : ForgedOp} {x : String} :
    x ∈ tensorSet f ↔ ∃ d ∈ paulis_each_op f, x ∈ dkeys d := by
  rw [tensorSet, mem_foldl_setUnion]
  simp

theorem mem_superposSet {f : ForgedOp} {x : String} :
    x ∈ superposSet f ↔ ∃ d ∈ (paulis_each_op f).tail, x ∈ dkeys d := by
  rw [superposSet, mem_foldl_setUnion]
  simp

theorem nodup_tensorSet (f : ForgedOp) : (tensorSet f).Nodup :=
  nodup_foldl_setUnion List.nodup_nil

theorem nodup_superposSet (f : ForgedOp) : (superposSet f).Nodup :=
  nodup_foldl_setUnion List.nodup_nil

/-! ## Keys of the nonzero-filtered dicts -/

theorem any_key_iff {d : Terms} {k : String} :
    (d.any (fun p => p.1 = k)) = true ↔ k ∈ dkeys d := by
  rw [List.any_eq_true]
  constructor
  · rintro ⟨p, hp, hpk⟩
    rw [decide_eq_true_eq] at hpk
    exact hpk ▸ List.mem_map_of_mem Prod.fst hp
  · intro hk
    rw [dkeys, List.mem_map] at hk
    obtain ⟨p, hp, rfl⟩ := hk
    exact ⟨p, hp, by simp⟩

theorem dkeys_replace (d : Terms) (k : String) (v : CC) :
    dkeys (d.map (fun p => if p.1 = k then (k, v) else p)) = dkeys d := by
  unfold dkeys
  rw [List.map_map]
  refine List.map_congr_left fun p _ => ?_
  by_cases h : p.1 = k
  · simp [h]
  · simp [h]

theorem mem_dkeys_dinsert {d : Terms} {k x : String} {v : CC} :
    x ∈ dkeys (dinsert d k v) ↔ x ∈ dkeys d ∨ x = k := by
  unfold dinsert
  split
  · rename_i hany
    rw [dkeys_replace]
    constructor
    · exact Or.inl
    · rintro (h | rfl)
      · exact h
      · exact any_key_iff.mp hany
  · unfold dkeys
    rw [List.map_append]
    simp

theorem nodup_dkeys_dinsert {d : Terms} {k : String} {v : CC}
    (h : (dkeys d).Nodup) : (dkeys (dinsert d k v)).Nodup := by
  unfold dinsert
  split
  · rwa [dkeys_replace]
  · rename_i hany
    have hk : k ∉ dkeys d := fun hm => hany (any_key_iff.mpr hm)
    unfold dkeys
    rw [List.map_append]
    exact ((List.perm_append_singleton k _).nodup_iff).mpr (h.cons hk)

theorem mem_dkeys_toDict_aux (l : Terms) (d : Terms) (x : String) :
    x ∈ dkeys (l.foldl
        (fun d p => if 0 < p.2.absSq then dinsert d p.1 p.2 else d) d) ↔
      x ∈ dkeys d ∨ ∃ w, (x, w) ∈ l ∧ 0 < w.absSq := by
  induction l generalizing d with
  | nil => simp
  | cons p l ih =>
    rw [List.foldl_cons, ih]
    by_cases hp : 0 < p.2.absSq
    · rw [if_pos hp, mem_dkeys_dinsert]
      constructor
      · rintro ((h | rfl) | ⟨w, hw, hw0⟩)
        · exact Or.inl h
        · exact Or.inr ⟨p.2, List.mem_cons_self _ _, hp⟩
        · exact Or.inr ⟨w, List.mem_cons_of_mem _ hw, hw0⟩
      · rintro (h | ⟨w, hw, hw0⟩)
        · exact Or.inl (Or.inl h)
        · rcases List.mem_cons.mp hw with heq | hmem
          · have hx : x = p.1 := by rw [← heq]
            exact Or.inl (Or.inr hx)
          · exact Or.inr ⟨w, hmem, hw0⟩
    · rw [if_neg hp]
      constructor
      · rintro (h | ⟨w, hw, hw0⟩)
        · exact Or.inl h
        · exact Or.inr ⟨w, List.mem_cons_of_mem _ hw, hw0⟩
      · rintro (h | ⟨w, hw, hw0⟩)
        · exact Or.inl h
        · rcases List.mem_cons.mp hw with heq | hmem
          · rw [← heq] at hp
            exact absurd hw0 hp
          · exact Or.inr ⟨w, hmem, hw0⟩

theorem mem_dkeys_toDict {l : Terms} {x : String} :
    x ∈ dkeys (toDict l) ↔ ∃ w, (x, w) ∈ l ∧ 0 < w.absSq := by
  rw [toDict, mem_dkeys_toDict_aux]
  simp [dkeys]

theorem nodup_dkeys_toDict_aux (l : Terms) (d : Terms)
    (h : (dkeys d).Nodup) :
    (dkeys (l.foldl
      (fun d p => if 0 < p.2.absSq then dinsert d p.1 p.2 else d) d)).Nodup := by
  induction l generalizing d with
  | nil => exact h
  | cons p l ih =>
    rw [List.foldl_cons]
    by_cases hp : 0 < p.2.absSq
    · rw [if_pos hp]
      exact ih _ (nodup_dkeys_dinsert h)
    · rw [if_neg hp]
      exact ih _ h

theorem nodup_dkeys_toDict (l : Terms) : (dkeys (toDict l)).Nodup :=
  nodup_dkeys_toDict_aux l [] List.nodup_nil

/-! ## Symmetry and support of the accumulated sums -/

theorem CC.mul_re_comm (a b : CC) : (CC.mul a b).re = (CC.mul b a).re := by
  unfold CC.mul
  dsimp only
  ring

theorem oneBodySum_symm (ordT : String → Nat) (idIdx : Nat) (d : Terms)
    (a b : Nat) : oneBodySum ordT idIdx d a b = oneBodySum ordT idIdx d b a := by
  unfold oneBodySum
  refine congrArg List.sum (List.map_congr_left fun p _ => ?_)
  rw [add_comm]
  congr 1
  · exact if_congr and_comm rfl rfl
  · exact if_congr and_comm rfl rfl

theorem pairContrib_symm (ord : String → Nat) (d : Terms) (a b : Nat) :
    pairContrib ord d a b = pairContrib ord d b a := by
  unfold pairContrib
  rw [sum_map_swap d d (fun p1 p2 =>
    if ord p1.1 = a ∧ ord p2.1 = b then (CC.mul p1.2 p2.2).re else 0)]
  refine congrArg List.sum (List.map_congr_left fun p1 _ => ?_)
  refine congrArg List.sum (List.map_congr_left fun p2 _ => ?_)
  exact if_congr and_comm (CC.mul_re_comm _ _) rfl

theorem pairSum_symm (ord : String → Nat) (ds : List Terms) (a b : Nat) :
    pairSum ord ds a b = pairSum ord ds b a := by
  unfold pairSum
  exact congrArg List.sum (List.map_congr_left fun d _ => pairContrib_symm ord d a b)

theorem oneBodySum_eq_zero {ordT : String → Nat} {idIdx n : Nat} {d : Terms}
    (h1 : ∀ p ∈ d, ordT p.1 < n) (h2 : idIdx < n) {a b : Nat}
    (hab : n ≤ a ∨ n ≤ b) : oneBodySum ordT idIdx d a b = 0 := by
  refine List.sum_eq_zero fun x hx => ?_
  rw [List.mem_map] at hx
  obtain ⟨p, hp, rfl⟩ := hx
  have hpa := h1 p hp
  rcases hab with hna | hnb
  · rw [if_neg (by rintro ⟨rfl, -⟩; omega), if_neg (by rintro ⟨rfl, -⟩; omega),
      add_zero]
  · rw [if_neg (by rintro ⟨-, rfl⟩; omega), if_neg (by rintro ⟨-, rfl⟩; omega),
      add_zero]

theorem pairContrib_eq_zero {ord : String → Nat} {n : Nat} {d : Terms}
    (h1 : ∀ p ∈ d, ord p.1 < n) {a b : Nat} (hab : n ≤ a ∨ n ≤ b) :
    pairContrib ord d a b = 0 := by
  refine List.sum_eq_zero fun x hx => ?_
  rw [List.mem_map] at hx
  obtain ⟨p1, hp1, rfl⟩ := hx
  refine List.sum_eq_zero fun y hy => ?_
  rw [List.mem_map] at hy
  obtain ⟨p2, hp2, rfl⟩ := hy
  have ha1 := h1 p1 hp1
  have ha2 := h1 p2 hp2
  rcases hab with hna | hnb
  · rw [if_neg (by rintro ⟨rfl, -⟩; omega)]
  · rw [if_neg (by rintro ⟨-, rfl⟩; omega)]

theorem pairSum_eq_zero {ord : String → Nat} {n : Nat} {ds : List Terms}
    (h1 : ∀ d ∈ ds, ∀ p ∈ d, ord p.1 < n) {a b : Nat} (hab : n ≤ a ∨ n ≤ b) :
    pairSum ord ds a b = 0 := by
  refine List.sum_eq_zero fun x hx => ?_
  rw [List.mem_map] at hx
  obtain ⟨d, hd, rfl⟩ := hx
  exact pairContrib_eq_zero (h1 d hd) hab

/-! ## Further structural facts used by the claim theorems -/

theorem sum_zero_of_no_key {d : Terms} {c : String} (g : String × CC → ℚ)
    (h : ∀ q ∈ d, q.1 ≠ c) :
    (d.map (fun q => if q.1 = c then g q else 0)).sum = 0 := by
  refine List.sum_eq_zero fun x hx => ?_
  rw [List.mem_map] at hx
  obtain ⟨q, hq, rfl⟩ := hx
  exact if_neg (h q hq)

theorem sum_single_key {d : Terms} (hnd : (dkeys d).Nodup) {p : String × CC}
    (hp : p ∈ d) (g : String × CC → ℚ) :
    (d.map (fun q => if q.1 = p.1 then g q else 0)).sum = g p := by
  induction d with
  | nil => cases hp
  | cons q d ih =>
    rw [dkeys, List.map_cons, List.nodup_cons] at hnd
    obtain ⟨hq1, hnd'⟩ := hnd
    rcases List.mem_cons.mp hp with rfl | hpd
    · rw [List.map_cons, List.sum_cons, if_pos rfl,
        sum_zero_of_no_key g
          (fun q' hq' hc =>
            hq1 (by rw [← hc]; exact List.mem_map_of_mem Prod.fst hq')),
        add_zero]
    · have hqp : q.1 ≠ p.1 := fun hc =>
        hq1 (by rw [hc]; exact List.mem_map_of_mem Prod.fst hpd)
      rw [List.map_cons, List.sum_cons, if_neg hqp, zero_add]
      exact ih hnd' hpd

theorem toDict_eq_nil {l : Terms} (h : ∀ p ∈ l, ¬ 0 < p.2.absSq) :
    toDict l = [] := by
  unfold toDict
  induction l with
  | nil => rfl
  | cons p l ih =>
    rw [List.foldl_cons, if_neg (h p (List.mem_cons_self _ _))]
    exact ih fun q hq => h q (List.mem_cons_of_mem _ hq)

theorem toDict_ne_nil {l : Terms} {p : String × CC} (hp : p ∈ l)
    (h0 : 0 < p.2.absSq) : toDict l ≠ [] := by
  intro hnil
  have : p.1 ∈ dkeys (toDict l) := mem_dkeys_toDict.mpr ⟨p.2, hp, h0⟩
  rw [hnil] at this
  cases this

theorem paulis_each_op_of_empty_factors {f : ForgedOp}
    (h2 : ∀ d ∈ f.h_chol_ops.getD [], ∀ p ∈ d, ¬ 0 < p.2.absSq) :
    paulis_each_op f = [toDict f.h_1_op] := by
  unfold paulis_each_op
  congr 1
  rw [List.filter_eq_nil_iff]
  intro d hd
  rw [List.mem_map] at hd
  obtain ⟨d0, hd0, rfl⟩ := hd
  rw [toDict_eq_nil (h2 d0 hd0)]
  simp

theorem identity_string_of_empty {f : ForgedOp}
    (h1 : ∀ p ∈ f.h_1_op, ¬ 0 < p.2.absSq)
    (h2 : ∀ d ∈ f.h_chol_ops.getD [], ∀ p ∈ d, ¬ 0 < p.2.absSq) :
    identity_string f = none := by
  have hpeo : paulis_each_op f = [toDict f.h_1_op] :=
    paulis_each_op_of_empty_factors h2
  have hlp : last_pnames f = [] := by
    rw [last_pnames, hpeo, toDict_eq_nil h1]
    rfl
  rw [identity_string, hlp]

theorem construct_of_identity_none {f : ForgedOp}
    (h : identity_string f = none) : construct f = .error .indexError := by
  unfold construct
  rw [h]

theorem construct_of_identity_some {f : ForgedOp} {s : String}
    (h : identity_string f = some s) : ∃ r, construct f = .ok r :=
  ⟨_, by unfold construct; rw [h]⟩

theorem identity_string_chars {f : ForgedOp} {s : String}
    (h : identity_string f = some s) : ∀ c ∈ s.data, c = 'I' := by
  unfold identity_string at h
  cases hl : last_pnames f with
  | nil => rw [hl] at h; cases h
  | cons p rest =>
    rw [hl] at h
    injection h with h
    subst h
    intro c hc
    exact (List.mem_replicate.mp hc).2

theorem mem_tensor_list {f : ForgedOp} {r : ConstructResult} {s : String}
    (h : construct f = .ok r) (hid : identity_string f = some s) {x : String}
    (hx : x ∈ tensorSet f ∨ x = s) : x ∈ r.tensor_paulis := by
  obtain ⟨s', hid', hT, -, -, -⟩ := construct_ok h
  rw [hid'] at hid
  injection hid with hss
  subst hss
  rw [hT, mem_ssort, mem_setAdd]
  exact hx

theorem key_mem_tensorSet {f : ForgedOp} {x : String}
    (hx : ∃ d ∈ paulis_each_op f, x ∈ dkeys d) : x ∈ tensorSet f :=
  mem_tensorSet.mpr hx

theorem ordIdx_lt {l : List String} {x : String} (h : x ∈ l) :
    ordIdx l x < l.length :=
  List.indexOf_lt_length.mpr h

theorem ordIdx_inj {l : List String} {x y : String} (hx : x ∈ l) (hy : y ∈ l)
    (h : ordIdx l x = ordIdx l y) : x = y :=
  (List.indexOf_inj hx hy).mp h

/-! ## Claim theorems -/

/-- C1: on the toy scenario (one-body terms `IIZI ↦ 0.3`, `IIII ↦ 0`; one
factor `{IIZI: 0.5, IXXI: 0.2}`), `construct` returns
`tensor_paulis = [IIII, IIZI, IXXI]`, `superpos_paulis = [IIZI, IXXI]`,
`w_ij` with `0.3` at the (IIZI, IIII) pair and its symmetric counterpart,
the pair products `0.25, 0.1, 0.1, 0.04` at the (IIZI/IXXI) blocks of both
`w_ij` and `w_ab`, and zero everywhere else. -/
theorem claim_c1_toy_scenario :
    (construct toyF).toOption.map (fun r => r.tensor_paulis) =
      some ["IIII", "IIZI", "IXXI"] ∧
    (construct toyF).toOption.map (fun r => r.superpos_paulis) =
      some ["IIZI", "IXXI"] ∧
    (construct toyF).toOption.map (fun r =>
        (List.range 3).map (fun i => (List.range 3).map (fun j => r.w_ij i j))) =
      some [[0, 3/10, 0], [3/10, 1/4, 1/10], [0, 1/10, 1/25]] ∧
    (construct toyF).toOption.map (fun r =>
        (List.range 2).map (fun a => (List.range 2).map (fun b => r.w_ab a b))) =
      some [[1/4, 1/10], [1/10, 1/25]] := by
  with_unfolding_all decide

/-- C3: `ForgedOperator.__init__` succeeds for every molecule with
`num_alpha == num_beta` (for any decomposer result) and fails with the
precondition error (the failed `assert`) whenever the counts differ. -/
theorem claim_c3_precondition {I : Type}
    (decomp : QMoleculeData I → List Nat → Terms × Option (List Terms))
    (q : QMoleculeData I) (orbs : List Nat) :
    (q.num_alpha = q.num_beta →
      forgedOperatorInit decomp q orbs =
        .ok ⟨(decomp q orbs).1, (decomp q orbs).2⟩) ∧
    (q.num_alpha ≠ q.num_beta →
      forgedOperatorInit decomp q orbs = .error .preconditionError) := by
  constructor
  · intro h
    unfold forgedOperatorInit
    rw [if_pos h]
  · intro h
    unfold forgedOperatorInit
    rw [if_neg h]

theorem claim_c3_precondition_witness :
    forgedOperatorInit (fun _ _ => ([], none)) (⟨(), 2, 2⟩ : QMoleculeData Unit) [] =
      .ok ⟨[], none⟩ ∧
    forgedOperatorInit (fun _ _ => ([], none)) (⟨(), 2, 1⟩ : QMoleculeData Unit) [] =
      .error .preconditionError :=
  ⟨(claim_c3_precondition (fun _ _ => ([], none)) ⟨(), 2, 2⟩ []).1 rfl,
   (claim_c3_precondition (fun _ _ => ([], none)) ⟨(), 2, 1⟩ []).2 (by decide)⟩

/-- C7 (counterexample): on a state with no nonzero term anywhere,
`construct` does fail, but with the `IndexError` of `pnames[0]`, not with
the dedicated `EmptyOperatorError` the claim names (no such error exists
in the source). -/
theorem claim_c7_counterexample :
    construct ⟨[("IIII", ⟨0, 0⟩)], some [[]]⟩ = .error .indexError ∧
    construct ⟨[("IIII", ⟨0, 0⟩)], some [[]]⟩ ≠ .error .emptyOperatorError := by
  have h : construct ⟨[("IIII", ⟨0, 0⟩)], some [[]]⟩ = .error .indexError := by
    with_unfolding_all rfl
  refine ⟨h, ?_⟩
  rw [h]
  intro hc
  injection hc with hc
  cases hc

/-- C7 (amended): if no operator anywhere (neither the one-body operator
nor any two-body factor) has a nonzero term, `construct` fails with the
`IndexError` raised by `pnames[0]` in the identity-label derivation (the
source defines no dedicated `EmptyOperatorError`). -/
theorem claim_c7_empty_fails {f : ForgedOp}
    (h1 : ∀ p ∈ f.h_1_op, ¬ 0 < p.2.absSq)
    (h2 : ∀ d ∈ f.h_chol_ops.getD [], ∀ p ∈ d, ¬ 0 < p.2.absSq) :
    construct f = .error .indexError :=
  construct_of_identity_none (identity_string_of_empty h1 h2)

theorem claim_c7_empty_fails_witness :
    construct ⟨[], none⟩ = .error .indexError :=
  claim_c7_empty_fails (by simp) (by simp)

/-! ## Helpers for the remaining claims -/

theorem toy_construct_ok : ∃ r, construct toyF = Except.ok r :=
  construct_of_identity_some
    (show identity_string toyF = some "IIII" by with_unfolding_all decide)

theorem tail_mem_paulis {f : ForgedOp} {d : Terms}
    (hd : d ∈ (paulis_each_op f).tail) : d ∈ paulis_each_op f :=
  List.mem_of_mem_tail hd

/-- A label is in the superposition set exactly when it carries a nonzero
weight in at least one two-body factor. -/
theorem mem_superposSet_iff {f : ForgedOp} {x : String} :
    x ∈ superposSet f ↔
      ∃ d ∈ f.h_chol_ops.getD [], ∃ w, (x, w) ∈ d ∧ 0 < w.absSq := by
  rw [mem_superposSet]
  show (∃ d ∈ (((f.h_chol_ops.getD []).map toDict).filter
      (fun p => !p.isEmpty)), x ∈ dkeys d) ↔ _
  constructor
  · rintro ⟨d, hd, hx⟩
    rw [List.mem_filter] at hd
    obtain ⟨hdm, -⟩ := hd
    rw [List.mem_map] at hdm
    obtain ⟨d0, hd0, rfl⟩ := hdm
    exact ⟨d0, hd0, mem_dkeys_toDict.mp hx⟩
  · rintro ⟨d0, hd0, w, hw, hw0⟩
    have hx : x ∈ dkeys (toDict d0) := mem_dkeys_toDict.mpr ⟨w, hw, hw0⟩
    refine ⟨toDict d0, ?_, hx⟩
    rw [List.mem_filter]
    refine ⟨List.mem_map_of_mem _ hd0, ?_⟩
    cases htd : toDict d0 with
    | nil =>
      rw [htd] at hx
      cases hx
    | cons q d' => rfl

/-! ## C2, C4, C10 -/

/-- C2: on every successful run, `w_ij` and `w_ab` are exactly symmetric,
and they are square matrices of size `|tensor_paulis|` and
`|superpos_paulis|`: every entry outside that index square is zero (all
loop updates stay inside it). -/
theorem claim_c2_symmetric {f : ForgedOp} {r : ConstructResult}
    (h : construct f = .ok r) :
    (∀ a b, r.w_ij a b = r.w_ij b a) ∧
    (∀ a b, r.w_ab a b = r.w_ab b a) ∧
    (∀ a b, r.tensor_paulis.length ≤ a ∨ r.tensor_paulis.length ≤ b →
      r.w_ij a b = 0) ∧
    (∀ a b, r.superpos_paulis.length ≤ a ∨ r.superpos_paulis.length ≤ b →
      r.w_ab a b = 0) := by
  obtain ⟨s, hid, hT, hS, hij, hab⟩ := construct_ok h
  have hkeyT : ∀ p ∈ toDict f.h_1_op,
      ordIdx r.tensor_paulis p.1 < r.tensor_paulis.length := fun p hp =>
    ordIdx_lt (mem_tensor_list h hid (Or.inl (key_mem_tensorSet
      ⟨_, List.mem_cons_self _ _, List.mem_map_of_mem Prod.fst hp⟩)))
  have hidT : ordIdx r.tensor_paulis s < r.tensor_paulis.length :=
    ordIdx_lt (mem_tensor_list h hid (Or.inr rfl))
  have hfacT : ∀ d ∈ (paulis_each_op f).tail, ∀ p ∈ d,
      ordIdx r.tensor_paulis p.1 < r.tensor_paulis.length := by
    intro d hd p hp
    exact ordIdx_lt (mem_tensor_list h hid (Or.inl (key_mem_tensorSet
      ⟨d, tail_mem_paulis hd, List.mem_map_of_mem Prod.fst hp⟩)))
  have hfacS : ∀ d ∈ (paulis_each_op f).tail, ∀ p ∈ d,
      ordIdx r.superpos_paulis p.1 < r.superpos_paulis.length := by
    intro d hd p hp
    refine ordIdx_lt ?_
    rw [hS, mem_ssort]
    exact mem_superposSet.mpr ⟨d, hd, List.mem_map_of_mem Prod.fst hp⟩
  refine ⟨?_, ?_, ?_, ?_⟩
  · intro a b
    rw [hij a b, hij b a, oneBodySum_symm, pairSum_symm]
  · intro a b
    rw [hab a b, hab b a, pairSum_symm]
  · intro a b hb
    rw [hij a b, oneBodySum_eq_zero hkeyT hidT hb, pairSum_eq_zero hfacT hb,
      add_zero]
  · intro a b hb
    rw [hab a b, pairSum_eq_zero hfacS hb]

theorem claim_c2_symmetric_witness :
    ∃ r, construct toyF = Except.ok r ∧ r.w_ij 2 1 = r.w_ij 1 2 ∧
      r.w_ab 1 0 = r.w_ab 0 1 := by
  obtain ⟨r, hr⟩ := toy_construct_ok
  obtain ⟨h1, h2, -, -⟩ := claim_c2_symmetric hr
  exact ⟨r, hr, h1 2 1, h2 1 0⟩

/-- C4: on every successful run, `tensor_paulis` contains the derived
all-`I` identity label, `superpos_paulis` is a subset of `tensor_paulis`
of no greater length, and `superpos_paulis` consists exactly of the
labels that occur with nonzero weight in at least one two-body factor. -/
theorem claim_c4_label_invariants {f : ForgedOp} {r : ConstructResult}
    (h : construct f = .ok r) :
    (∃ s, identity_string f = some s ∧ s ∈ r.tensor_paulis ∧
      ∀ c ∈ s.data, c = 'I') ∧
    r.superpos_paulis ⊆ r.tensor_paulis ∧
    r.superpos_paulis.length ≤ r.tensor_paulis.length ∧
    (∀ x, x ∈ r.superpos_paulis ↔
      ∃ d ∈ f.h_chol_ops.getD [], ∃ w, (x, w) ∈ d ∧ 0 < w.absSq) := by
  obtain ⟨s, hid, hT, hS, -, -⟩ := construct_ok h
  have hsub : r.superpos_paulis ⊆ r.tensor_paulis := by
    intro x hx
    rw [hS, mem_ssort] at hx
    obtain ⟨d, hd, hkey⟩ := mem_superposSet.mp hx
    exact mem_tensor_list h hid
      (Or.inl (key_mem_tensorSet ⟨d, tail_mem_paulis hd, hkey⟩))
  have hndS : r.superpos_paulis.Nodup := by
    rw [hS]
    exact nodup_ssort (nodup_superposSet f)
  refine ⟨⟨s, hid, mem_tensor_list h hid (Or.inr rfl),
      identity_string_chars hid⟩, hsub, ?_, ?_⟩
  · exact (hndS.subperm hsub).length_le
  · intro x
    rw [hS, mem_ssort]
    exact mem_superposSet_iff

theorem claim_c4_label_invariants_witness :
    ∃ r s, construct toyF = Except.ok r ∧ identity_string toyF = some s ∧
      s ∈ r.tensor_paulis ∧ r.superpos_paulis.length ≤ r.tensor_paulis.length := by
  obtain ⟨r, hr⟩ := toy_construct_ok
  obtain ⟨⟨s, hid, hmem, -⟩, -, hlen, -⟩ := claim_c4_label_invariants hr
  exact ⟨r, s, hr, hid, hmem, hlen⟩

/-- C10: with no factor operators (`None` or all factors weightless) but a
nonzero one-body term, `construct` succeeds, `superpos_paulis` is empty,
`w_ab` is identically zero (a 0×0 matrix), and every nonzero `w_ij` entry
lies in the identity label's row or column. -/
theorem claim_c10_no_factors {f : ForgedOp}
    (hfac : f.h_chol_ops = none ∨
      ∀ d ∈ f.h_chol_ops.getD [], ∀ p ∈ d, ¬ 0 < p.2.absSq)
    (hone : ∃ p ∈ f.h_1_op, 0 < p.2.absSq) :
    ∃ r s, construct f = .ok r ∧ identity_string f = some s ∧
      r.superpos_paulis = [] ∧
      (∀ a b, r.w_ab a b = 0) ∧
      (∀ a b, r.w_ij a b ≠ 0 →
        a = ordIdx r.tensor_paulis s ∨ b = ordIdx r.tensor_paulis s) := by
  have hfac' : ∀ d ∈ f.h_chol_ops.getD [], ∀ p ∈ d, ¬ 0 < p.2.absSq := by
    rcases hfac with hn | hh
    · rw [hn]
      intro d hd
      cases hd
    · exact hh
  have hpeo : paulis_each_op f = [toDict f.h_1_op] :=
    paulis_each_op_of_empty_factors hfac'
  obtain ⟨p, hp, h0⟩ := hone
  have tdne : toDict f.h_1_op ≠ [] := toDict_ne_nil hp h0
  have hlp : last_pnames f = dkeys (toDict f.h_1_op) := by
    rw [last_pnames, hpeo, List.getLast?_singleton]
    rfl
  have htail : (paulis_each_op f).tail = [] := by
    rw [hpeo]
    rfl
  cases htd : toDict f.h_1_op with
  | nil => exact absurd htd tdne
  | cons q d' =>
    have hid : identity_string f = some ⟨List.replicate q.1.length 'I'⟩ := by
      rw [identity_string, hlp, htd]
      rfl
    obtain ⟨r, hr⟩ := construct_of_identity_some hid
    obtain ⟨s', hid', hT, hS, hij, hab⟩ := construct_ok hr
    refine ⟨r, s', hr, hid', ?_, ?_, ?_⟩
    · rw [hS]
      have hsup : superposSet f = [] := by
        rw [superposSet, htail]
        rfl
      rw [hsup]
      rfl
    · intro a b
      rw [hab a b, htail]
      rfl
    · intro a b hne
      rw [hij a b, htail] at hne
      rw [show pairSum (ordIdx r.tensor_paulis) ([] : List Terms) a b = 0
        from rfl, add_zero] at hne
      by_contra hcon
      push_neg at hcon
      obtain ⟨hna, hnb⟩ := hcon
      refine hne (List.sum_eq_zero fun x hx => ?_)
      rw [List.mem_map] at hx
      obtain ⟨u, hu, rfl⟩ := hx
      rw [if_neg (fun hc => hnb hc.2.symm), if_neg (fun hc => hna hc.1.symm),
        add_zero]

theorem claim_c10_no_factors_witness :
    ∃ r s, construct (⟨[("IZ", ⟨1, 0⟩)], none⟩ : ForgedOp) = .ok r ∧
      identity_string ⟨[("IZ", ⟨1, 0⟩)], none⟩ = some s ∧
      r.superpos_paulis = [] ∧
      (∀ a b, r.w_ab a b = 0) ∧
      (∀ a b, r.w_ij a b ≠ 0 →
        a = ordIdx r.tensor_paulis s ∨ b = ordIdx r.tensor_paulis s) :=
  claim_c10_no_factors (Or.inl rfl)
    ⟨("IZ", ⟨1, 0⟩), List.mem_cons_self _ _, by with_unfolding_all decide⟩

/-! ## C5, C6, C8 -/

theorem oneBodySum_entry_left {T : List String} {s : String} {d : Terms}
    (hnd : (dkeys d).Nodup) (hkey : ∀ q ∈ d, q.1 ∈ T) (hsT : s ∈ T)
    {p : String} {w : CC} (hp : (p, w) ∈ d) (hps : p ≠ s) :
    oneBodySum (ordIdx T) (ordIdx T s) d (ordIdx T p) (ordIdx T s) = w.re := by
  unfold oneBodySum
  have hpT : p ∈ T := hkey (p, w) hp
  have step : ∀ q ∈ d,
      ((if ordIdx T q.1 = ordIdx T p ∧ ordIdx T s = ordIdx T s
          then q.2.re else 0) +
       (if ordIdx T s = ordIdx T p ∧ ordIdx T q.1 = ordIdx T s
          then q.2.re else 0)) =
      (if q.1 = p then q.2.re else 0) := by
    intro q hq
    have e2 : (if ordIdx T s = ordIdx T p ∧ ordIdx T q.1 = ordIdx T s
        then q.2.re else 0) = 0 :=
      if_neg (fun hc => hps (ordIdx_inj hsT hpT hc.1).symm)
    rw [e2, add_zero]
    exact if_congr ⟨fun hc => ordIdx_inj (hkey q hq) hpT hc.1,
      fun hc => ⟨by rw [hc], rfl⟩⟩ rfl rfl
  rw [List.map_congr_left step]
  exact sum_single_key hnd hp (fun q => q.2.re)

theorem oneBodySum_entry_right {T : List String} {s : String} {d : Terms}
    (hnd : (dkeys d).Nodup) (hkey : ∀ q ∈ d, q.1 ∈ T) (hsT : s ∈ T)
    {p : String} {w : CC} (hp : (p, w) ∈ d) (hps : p ≠ s) :
    oneBodySum (ordIdx T) (ordIdx T s) d (ordIdx T s) (ordIdx T p) = w.re := by
  unfold oneBodySum
  have hpT : p ∈ T := hkey (p, w) hp
  have step : ∀ q ∈ d,
      ((if ordIdx T q.1 = ordIdx T s ∧ ordIdx T s = ordIdx T p
          then q.2.re else 0) +
       (if ordIdx T s = ordIdx T s ∧ ordIdx T q.1 = ordIdx T p
          then q.2.re else 0)) =
      (if q.1 = p then q.2.re else 0) := by
    intro q hq
    have e1 : (if ordIdx T q.1 = ordIdx T s ∧ ordIdx T s = ordIdx T p
        then q.2.re else 0) = 0 :=
      if_neg (fun hc => hps (ordIdx_inj hsT hpT hc.2).symm)
    rw [e1, zero_add]
    exact if_congr ⟨fun hc => ordIdx_inj (hkey q hq) hpT hc.2,
      fun hc => ⟨rfl, by rw [hc]⟩⟩ rfl rfl
  rw [List.map_congr_left step]
  exact sum_single_key hnd hp (fun q => q.2.re)

theorem oneBodySum_entry_diag {T : List String} {s : String} {d : Terms}
    (hnd : (dkeys d).Nodup) (hkey : ∀ q ∈ d, q.1 ∈ T) (hsT : s ∈ T)
    {w : CC} (hp : (s, w) ∈ d) :
    oneBodySum (ordIdx T) (ordIdx T s) d (ordIdx T s) (ordIdx T s) =
      2 * w.re := by
  unfold oneBodySum
  have step : ∀ q ∈ d,
      ((if ordIdx T q.1 = ordIdx T s ∧ ordIdx T s = ordIdx T s
          then q.2.re else 0) +
       (if ordIdx T s = ordIdx T s ∧ ordIdx T q.1 = ordIdx T s
          then q.2.re else 0)) =
      (if q.1 = s then 2 * q.2.re else 0) := by
    intro q hq
    by_cases hc : q.1 = s
    · have e1 : (if ordIdx T q.1 = ordIdx T s ∧ ordIdx T s = ordIdx T s
          then q.2.re else 0) = q.2.re :=
        if_pos ⟨by rw [hc], rfl⟩
      have e2 : (if ordIdx T s = ordIdx T s ∧ ordIdx T q.1 = ordIdx T s
          then q.2.re else 0) = q.2.re :=
        if_pos ⟨rfl, by rw [hc]⟩
      rw [e1, e2, if_pos hc]
      ring
    · have e1 : (if ordIdx T q.1 = ordIdx T s ∧ ordIdx T s = ordIdx T s
          then q.2.re else 0) = 0 :=
        if_neg (fun hcc => hc (ordIdx_inj (hkey q hq) hsT hcc.1))
      have e2 : (if ordIdx T s = ordIdx T s ∧ ordIdx T q.1 = ordIdx T s
          then q.2.re else 0) = 0 :=
        if_neg (fun hcc => hc (ordIdx_inj (hkey q hq) hsT hcc.2))
      rw [e1, e2, if_neg hc, add_zero]
  rw [List.map_congr_left step]
  exact sum_single_key hnd hp (fun q => 2 * q.2.re)

/-- C5: during the one-body loop, each nonzero term `(p, w)` adds `Re w`
to both `w_ij[index p, identity]` and `w_ij[identity, index p]`; starting
from the zero matrix these cells therefore hold `Re w`, and when `p` is
the identity label itself both additions land on the same diagonal cell,
which holds `2 · Re w`. -/
theorem claim_c5_one_body_double {f : ForgedOp} {r : ConstructResult}
    {s : String} (h : construct f = .ok r) (hid : identity_string f = some s)
    {p : String} {w : CC} (hp : (p, w) ∈ toDict f.h_1_op) :
    (p ≠ s →
      oneBodyMat f r.tensor_paulis s (ordIdx r.tensor_paulis p)
        (ordIdx r.tensor_paulis s) = w.re ∧
      oneBodyMat f r.tensor_paulis s (ordIdx r.tensor_paulis s)
        (ordIdx r.tensor_paulis p) = w.re) ∧
    (p = s →
      oneBodyMat f r.tensor_paulis s (ordIdx r.tensor_paulis s)
        (ordIdx r.tensor_paulis s) = 2 * w.re) := by
  have hkey : ∀ q ∈ toDict f.h_1_op, q.1 ∈ r.tensor_paulis := fun q hq =>
    mem_tensor_list h hid (Or.inl (key_mem_tensorSet
      ⟨_, List.mem_cons_self _ _, List.mem_map_of_mem Prod.fst hq⟩))
  have hsT : s ∈ r.tensor_paulis := mem_tensor_list h hid (Or.inr rfl)
  have hnd := nodup_dkeys_toDict f.h_1_op
  have heval : ∀ x y, oneBodyMat f r.tensor_paulis s x y =
      oneBodySum (ordIdx r.tensor_paulis) (ordIdx r.tensor_paulis s)
        (toDict f.h_1_op) x y := by
    intro x y
    rw [oneBodyMat, oneBodyFold_apply]
    show (0 : ℚ) + _ = _
    rw [zero_add]
  constructor
  · intro hps
    rw [heval, heval]
    exact ⟨oneBodySum_entry_left hnd hkey hsT hp hps,
      oneBodySum_entry_right hnd hkey hsT hp hps⟩
  · intro hps
    subst hps
    rw [heval]
    exact oneBodySum_entry_diag hnd hkey hsT hp

theorem claim_c5_one_body_double_witness :
    ∃ r, construct toyF = Except.ok r ∧
      oneBodyMat toyF r.tensor_paulis "IIII" (ordIdx r.tensor_paulis "IIZI")
        (ordIdx r.tensor_paulis "IIII") = (3/10 : ℚ) := by
  obtain ⟨r, hr⟩ := toy_construct_ok
  have hid : identity_string toyF = some "IIII" := by with_unfolding_all decide
  have hp : ("IIZI", (⟨3/10, 0⟩ : CC)) ∈ toDict toyF.h_1_op := by
    with_unfolding_all decide
  have hh := (claim_c5_one_body_double hr hid hp).1 (by decide)
  exact ⟨r, hr, hh.1⟩

/-- C6: each entry of the returned `w_ij` is the one-body contribution
plus, for every factor and every ordered pair of its nonzero terms
(equal labels included), `Re (w_1 * w_2)` accumulated at the tensor-index
pair; each entry of `w_ab` is the same per-factor accumulation at the
superpos-index pair, summed additively over the factors. -/
theorem claim_c6_pair_accumulation {f : ForgedOp} {r : ConstructResult}
    {s : String} (h : construct f = .ok r) (hid : identity_string f = some s)
    (a b : Nat) :
    r.w_ij a b =
      oneBodySum (ordIdx r.tensor_paulis) (ordIdx r.tensor_paulis s)
        (toDict f.h_1_op) a b +
      pairSum (ordIdx r.tensor_paulis) (paulis_each_op f).tail a b ∧
    r.w_ab a b =
      pairSum (ordIdx r.superpos_paulis) (paulis_each_op f).tail a b := by
  obtain ⟨s', hid', hT, hS, hij, hab⟩ := construct_ok h
  rw [hid'] at hid
  injection hid with hss
  subst hss
  exact ⟨hij a b, hab a b⟩

theorem claim_c6_pair_accumulation_witness :
    ∃ r, construct toyF = Except.ok r ∧
      r.w_ij 1 2 =
        oneBodySum (ordIdx r.tensor_paulis) (ordIdx r.tensor_paulis "IIII")
          (toDict toyF.h_1_op) 1 2 +
        pairSum (ordIdx r.tensor_paulis) (paulis_each_op toyF).tail 1 2 ∧
      r.w_ab 0 1 =
        pairSum (ordIdx r.superpos_paulis) (paulis_each_op toyF).tail 0 1 := by
  obtain ⟨r, hr⟩ := toy_construct_ok
  have hid : identity_string toyF = some "IIII" := by with_unfolding_all decide
  exact ⟨r, hr, (claim_c6_pair_accumulation hr hid 1 2).1,
    (claim_c6_pair_accumulation hr hid 0 1).2⟩

/-- C8: `construct` does not mutate the instance (the returned post-state
is the pre-state), a second call yields the identical output, and a
successful run emits exactly the two informational log records that
report the sizes of the two label sets. -/
theorem claim_c8_idempotent_pure {f : ForgedOp} {r : ConstructResult}
    (h : construct f = .ok r) :
    (constructSt f).1 = f ∧
    (constructSt (constructSt f).1).2 = (constructSt f).2 ∧
    constructLogs f =
      [("num paulis for tensor states:", r.tensor_paulis.length),
       ("num paulis for superpos states:", r.superpos_paulis.length)] := by
  obtain ⟨s, hid, hT, hS, -, -⟩ := construct_ok h
  refine ⟨rfl, rfl, ?_⟩
  unfold constructLogs
  rw [hid, hT, hS, length_ssort, length_ssort]

theorem claim_c8_idempotent_pure_witness :
    ∃ r, construct toyF = Except.ok r ∧
      (constructSt toyF).1 = toyF ∧
      (constructSt (constructSt toyF).1).2 = (constructSt toyF).2 ∧
      constructLogs toyF =
        [("num paulis for tensor states:", r.tensor_paulis.length),
         ("num paulis for superpos states:", r.superpos_paulis.length)] := by
  obtain ⟨r, hr⟩ := toy_construct_ok
  obtain ⟨h1, h2, h3⟩ := claim_c8_idempotent_pure hr
  exact ⟨r, hr, h1, h2, h3⟩

/-! ## C9: sortedness and determinism under dict reordering -/

theorem forall2_filter_perm {L1 L2 : List Terms}
    (h : List.Forall₂ (fun d e => (toDict d).Perm (toDict e)) L1 L2) :
    List.Forall₂ (fun d e => d.Perm e)
      ((L1.map toDict).filter (fun p => !p.isEmpty))
      ((L2.map toDict).filter (fun p => !p.isEmpty)) := by
  induction h with
  | nil => exact List.Forall₂.nil
  | cons hde hrest ih =>
    rename_i d e L1' L2'
    simp only [List.map_cons, List.filter_cons]
    by_cases hd : toDict d = []
    · have he : toDict e = [] := by
        have hpe : ([] : Terms).Perm (toDict e) := hd ▸ hde
        exact hpe.symm.eq_nil
      rw [hd, he]
      simpa using ih
    · have he : toDict e ≠ [] := by
        intro hnil
        exact hd (hnil ▸ hde).eq_nil
      have hd' : (!(toDict d).isEmpty) = true := by
        simp [List.isEmpty_iff, hd]
      have he' : (!(toDict e).isEmpty) = true := by
        simp [List.isEmpty_iff, he]
      rw [if_pos hd', if_pos he']
      exact List.Forall₂.cons hde ih

theorem forall2_keys_iff {L1 L2 : List Terms}
    (h : List.Forall₂ (fun d e => d.Perm e) L1 L2) (x : String) :
    (∃ d ∈ L1, x ∈ dkeys d) ↔ ∃ d ∈ L2, x ∈ dkeys d := by
  induction h with
  | nil => simp
  | cons hde hrest ih =>
    rename_i d e L1' L2'
    constructor
    · rintro ⟨d', hd', hx⟩
      rcases List.mem_cons.mp hd' with rfl | hmem
      · exact ⟨e, List.mem_cons_self _ _, ((hde.map Prod.fst).mem_iff).mp hx⟩
      · obtain ⟨e', he', hx'⟩ := ih.mp ⟨d', hmem, hx⟩
        exact ⟨e', List.mem_cons_of_mem _ he', hx'⟩
    · rintro ⟨e', he', hx⟩
      rcases List.mem_cons.mp he' with rfl | hmem
      · exact ⟨d, List.mem_cons_self _ _, ((hde.map Prod.fst).mem_iff).mpr hx⟩
      · obtain ⟨d', hd', hx'⟩ := ih.mpr ⟨e', hmem, hx⟩
        exact ⟨d', List.mem_cons_of_mem _ hd', hx'⟩

theorem key_length_of_mem {f : ForgedOp} {n : Nat}
    (h1 : ∀ p ∈ f.h_1_op, p.1.length = n)
    (h2 : ∀ d ∈ f.h_chol_ops.getD [], ∀ p ∈ d, p.1.length = n)
    {d : Terms} (hd : d ∈ paulis_each_op f) {x : String} (hx : x ∈ dkeys d) :
    x.length = n := by
  unfold paulis_each_op at hd
  rcases List.mem_cons.mp hd with rfl | hmem
  · obtain ⟨w, hw, -⟩ := mem_dkeys_toDict.mp hx
    exact h1 (x, w) hw
  · rw [List.mem_filter] at hmem
    obtain ⟨hdm, -⟩ := hmem
    rw [List.mem_map] at hdm
    obtain ⟨d0, hd0, rfl⟩ := hdm
    obtain ⟨w, hw, -⟩ := mem_dkeys_toDict.mp hx
    exact h2 d0 hd0 (x, w) hw

theorem identity_string_eq_replicate {f : ForgedOp} {s : String} {n : Nat}
    (h1 : ∀ p ∈ f.h_1_op, p.1.length = n)
    (h2 : ∀ d ∈ f.h_chol_ops.getD [], ∀ p ∈ d, p.1.length = n)
    (h : identity_string f = some s) : s = ⟨List.replicate n 'I'⟩ := by
  unfold identity_string at h
  cases hl : last_pnames f with
  | nil =>
    rw [hl] at h
    cases h
  | cons p rest =>
    rw [hl] at h
    injection h with h
    subst h
    cases hgl : (paulis_each_op f).getLast? with
    | none =>
      rw [last_pnames, hgl] at hl
      cases hl
    | some d =>
      have hd : d ∈ paulis_each_op f := List.mem_of_mem_getLast? hgl
      have hp : p ∈ dkeys d := by
        rw [last_pnames, hgl] at hl
        rw [show dkeys ((some d).getD []) = dkeys d from rfl] at hl
        rw [hl]
        exact List.mem_cons_self _ _
      rw [key_length_of_mem h1 h2 hd hp]

/-- C9: the returned label lists are lexicographically sorted without
duplicates, and two runs whose operator dicts hold the same
label-to-weight mappings (in any iteration order, all labels of the fixed
qubit-count length) return identical label lists. -/
theorem claim_c9_sorted_deterministic {f g : ForgedOp}
    {rf rg : ConstructResult} {n : Nat}
    (hf : construct f = .ok rf) (hg : construct g = .ok rg)
    (hlenf1 : ∀ p ∈ f.h_1_op, p.1.length = n)
    (hlenf2 : ∀ d ∈ f.h_chol_ops.getD [], ∀ p ∈ d, p.1.length = n)
    (hleng1 : ∀ p ∈ g.h_1_op, p.1.length = n)
    (hleng2 : ∀ d ∈ g.h_chol_ops.getD [], ∀ p ∈ d, p.1.length = n)
    (hone : (toDict f.h_1_op).Perm (toDict g.h_1_op))
    (hfac : List.Forall₂ (fun d e => (toDict d).Perm (toDict e))
      (f.h_chol_ops.getD []) (g.h_chol_ops.getD [])) :
    List.Sorted strLe rf.tensor_paulis ∧ rf.tensor_paulis.Nodup ∧
    List.Sorted strLe rf.superpos_paulis ∧ rf.superpos_paulis.Nodup ∧
    rf.tensor_paulis = rg.tensor_paulis ∧
    rf.superpos_paulis = rg.superpos_paulis := by
  obtain ⟨sf, hidf, hTf, hSf, -, -⟩ := construct_ok hf
  obtain ⟨sg, hidg, hTg, hSg, -, -⟩ := construct_ok hg
  have hsf : sf = (⟨List.replicate n 'I'⟩ : String) :=
    identity_string_eq_replicate hlenf1 hlenf2 hidf
  have hsg : sg = (⟨List.replicate n 'I'⟩ : String) :=
    identity_string_eq_replicate hleng1 hleng2 hidg
  have htails : ∀ x : String,
      (∃ d ∈ (paulis_each_op f).tail, x ∈ dkeys d) ↔
      (∃ d ∈ (paulis_each_op g).tail, x ∈ dkeys d) := fun x =>
    forall2_keys_iff (forall2_filter_perm hfac) x
  have hmemT : ∀ x : String, x ∈ tensorSet f ↔ x ∈ tensorSet g := by
    intro x
    rw [mem_tensorSet, mem_tensorSet]
    constructor
    · rintro ⟨d, hd, hx⟩
      rcases List.mem_cons.mp hd with rfl | hmem
      · exact ⟨toDict g.h_1_op, List.mem_cons_self _ _,
          ((hone.map Prod.fst).mem_iff).mp hx⟩
      · obtain ⟨e, he, hx'⟩ := (htails x).mp ⟨d, hmem, hx⟩
        exact ⟨e, List.mem_cons_of_mem _ he, hx'⟩
    · rintro ⟨d, hd, hx⟩
      rcases List.mem_cons.mp hd with rfl | hmem
      · exact ⟨toDict f.h_1_op, List.mem_cons_self _ _,
          ((hone.map Prod.fst).mem_iff).mpr hx⟩
      · obtain ⟨e, he, hx'⟩ := (htails x).mpr ⟨d, hmem, hx⟩
        exact ⟨e, List.mem_cons_of_mem _ he, hx'⟩
  refine ⟨?_, ?_, ?_, ?_, ?_, ?_⟩
  · rw [hTf]
    exact sorted_ssort _
  · rw [hTf]
    exact nodup_ssort (nodup_setAdd (nodup_tensorSet f) _)
  · rw [hSf]
    exact sorted_ssort _
  · rw [hSf]
    exact nodup_ssort (nodup_superposSet f)
  · rw [hTf, hTg]
    refine List.eq_of_perm_of_sorted ?_ (sorted_ssort _) (sorted_ssort _)
    have hAB : (setAdd (tensorSet f) sf).Perm (setAdd (tensorSet g) sg) := by
      refine (List.perm_ext_iff_of_nodup (nodup_setAdd (nodup_tensorSet f) _)
        (nodup_setAdd (nodup_tensorSet g) _)).mpr ?_
      intro x
      rw [mem_setAdd, mem_setAdd, hsf, hsg]
      exact or_congr (hmemT x) Iff.rfl
    exact ((ssort_perm _).trans hAB).trans (ssort_perm _).symm
  · rw [hSf, hSg]
    refine List.eq_of_perm_of_sorted ?_ (sorted_ssort _) (sorted_ssort _)
    have hAB : (superposSet f).Perm (superposSet g) := by
      refine (List.perm_ext_iff_of_nodup (nodup_superposSet f)
        (nodup_superposSet g)).mpr ?_
      intro x
      rw [mem_superposSet, mem_superposSet]
      exact htails x
    exact ((ssort_perm _).trans hAB).trans (ssort_perm _).symm

/-- The toy state with both dicts listed in the opposite order (same
label-to-weight mappings as `toyF`). -/
def toyG : ForgedOp :=
  ⟨[("IIII", ⟨0, 0⟩), ("IIZI", ⟨3/10, 0⟩)],
   some [[("IXXI", ⟨1/5, 0⟩), ("IIZI", ⟨1/2, 0⟩)]]⟩

theorem toyG_construct_ok : ∃ r, construct toyG = Except.ok r :=
  construct_of_identity_some
    (show identity_string toyG = some "IIII" by with_unfolding_all decide)

theorem claim_c9_sorted_deterministic_witness :
    ∃ rf rg, construct toyF = Except.ok rf ∧ construct toyG = Except.ok rg ∧
      List.Sorted strLe rf.tensor_paulis ∧ rf.tensor_paulis.Nodup ∧
      rf.tensor_paulis = rg.tensor_paulis ∧
      rf.superpos_paulis = rg.superpos_paulis := by
  obtain ⟨rf, hrf⟩ := toy_construct_ok
  obtain ⟨rg, hrg⟩ := toyG_construct_ok
  have hperm1 : (toDict toyF.h_1_op).Perm (toDict toyG.h_1_op) := by
    have e : toDict toyF.h_1_op = toDict toyG.h_1_op := by
      with_unfolding_all decide
    rw [e]
  have hperm2 : (toDict toyFactor).Perm
      (toDict [("IXXI", (⟨1/5, 0⟩ : CC)), ("IIZI", ⟨1/2, 0⟩)]) := by
    have e1 : toDict toyFactor =
        [("IIZI", (⟨1/2, 0⟩ : CC)), ("IXXI", ⟨1/5, 0⟩)] := by
      with_unfolding_all decide
    have e2 : toDict [("IXXI", (⟨1/5, 0⟩ : CC)), ("IIZI", ⟨1/2, 0⟩)] =
        [("IXXI", (⟨1/5, 0⟩ : CC)), ("IIZI", ⟨1/2, 0⟩)] := by
      with_unfolding_all decide
    rw [e1, e2]
    exact List.Perm.swap _ _ _
  have hfac : List.Forall₂ (fun d e => (toDict d).Perm (toDict e))
      (toyF.h_chol_ops.getD []) (toyG.h_chol_ops.getD []) :=
    List.Forall₂.cons hperm2 List.Forall₂.nil
  have hh := claim_c9_sorted_deterministic hrf hrg
    (show ∀ p ∈ toyF.h_1_op, p.1.length = 4 by with_unfolding_all decide)
    (show ∀ d ∈ toyF.h_chol_ops.getD [], ∀ p ∈ d, p.1.length = 4 by
      with_unfolding_all decide)
    (show ∀ p ∈ toyG.h_1_op, p.1.length = 4 by with_unfolding_all decide)
    (show ∀ d ∈ toyG.h_chol_ops.getD [], ∀ p ∈ d, p.1.length = 4 by
      with_unfolding_all decide)
    hperm1 hfac
  exact ⟨rf, rg, hrf, hrg, hh.1, hh.2.1, hh.2.2.2.2.1, hh.2.2.2.2.2⟩
